import Mathlib

/-!
# FIFO dining-centre simulation (`fifo.cpp`): monitor, producer, tables, main

A shallow embedding of `src/fifo.cpp`.

* `std::chrono::steady_clock::time_point` is an `Int`: the tick count (nanoseconds)
  since the clock's epoch. A default-constructed `time_point` is the epoch, `0`.
* `int` is a 32-bit two's complement integer: the increments and decrements of
  `qsize` (lines 72, 93, 229) and of the producer's `id1` (line 135) are reduced to
  the range -2^31 .. 2^31 - 1 by `wrap32`. Values read from the file by `fscanf`
  are taken as the integers they denote.
* `std::deque<Customer>` is a `List Customer`: `push_back` appends at the end,
  `front`/`pop_front` take the head.
* The globals `queue.customers`, `qsize` and `done` form the record `Shared`.
* Every section of code run between `pthread_mutex_lock` and `pthread_mutex_unlock`
  is one atomic transition of `Shared`; reads of `done` and `qsize` made by
  `table_function` outside the lock are transitions of their own.
-/

namespace Fifo

/-! ## Data model -/

/-- A `struct Customer` (lines 35-42); the three time points are clock readings. -/
structure Customer where
  id : Int
  eating_time_left : Int
  arrival_time : Int
  sit_time : Int
  leave_time : Int
deriving DecidableEq, Repr

/-- The shared globals: `queue.customers` (line 47), `qsize` (line 30), `done` (line 31). -/
structure Shared where
  customers : List Customer
  qsize : Int
  done : Bool
deriving DecidableEq, Repr

/-- How one pass through `get_customer` ends for the calling thread. -/
inductive GetResult where
  /-- the loop test at line 54 holds: the thread parks in `pthread_cond_wait` (line 57) -/
  | waits
  /-- the test at line 62 holds: the thread unlocks and calls `pthread_exit` (lines 64-66) -/
  | exits
  /-- lines 70-78: the front customer is returned -/
  | returns (c : Customer)
deriving DecidableEq, Repr

/-! ## Machine integers -/

/-- The value of a 32-bit `int` after an arithmetic result `x`: `x` reduced modulo 2^32
into the range -2^31 .. 2^31 - 1. -/
def wrap32 (x : Int) : Int :=
  (x + 2147483648) % 4294967296 - 2147483648

/-! ## QueueMonitor -/

/-- The member `QueueMonitor::get_customer` (lines 49-79), one pass with the mutex held.
With the deque empty and `done` unset the loop at line 54 is entered and the thread
waits; the state is untouched and the same test is evaluated again (by another
application of this function to the then current state) after it is woken.
With the deque empty and `done` set the thread exits (lines 62-67).
Otherwise the front element is copied, popped and the `int` `qsize` is decremented. -/
def get_customer (s : Shared) : GetResult × Shared :=
  match s.customers with
  | [] => if s.done then (GetResult.exits, s) else (GetResult.waits, s)
  | c :: rest =>
      (GetResult.returns c, { s with customers := rest, qsize := wrap32 (s.qsize - 1) })

/-- The member `QueueMonitor::add_customer` (lines 81-99); `now` is the value returned by
`steady_clock::now()` at line 86. The `int` `qsize` is incremented at line 93. -/
def add_customer (s : Shared) (c : Customer) (now : Int) : Shared :=
  { s with customers := s.customers ++ [{ c with arrival_time := now }],
           qsize := wrap32 (s.qsize + 1) }

/-- Lines 139-142 of `producer_function`: under the lock, `done = true` and a broadcast. -/
def signal_done (s : Shared) : Shared :=
  { s with done := true }

/-! ## Sequences of monitor calls -/

/-- One call on the monitor. -/
inductive Op where
  | add (c : Customer) (now : Int)
  | get
  | shutdown
deriving DecidableEq, Repr

/-- Apply the calls one at a time; the second component lists, in order, how each
`get_customer` call ended. -/
def runOps : Shared → List Op → Shared × List GetResult
  | s, [] => (s, [])
  | s, Op.add c now :: ops => runOps (add_customer s c now) ops
  | s, Op.get :: ops =>
      let r := get_customer s
      let rest := runOps r.2 ops
      (rest.1, r.1 :: rest.2)
  | s, Op.shutdown :: ops => runOps (signal_done s) ops

/-- The customer a `get_customer` call handed out, if it handed one out. -/
def GetResult.customer? : GetResult → Option Customer
  | GetResult.returns c => some c
  | _ => none

/-- The customers handed over to `add_customer` by a call sequence, each as it is
stored in the deque (with the arrival stamp of line 86). -/
def addedBy : List Op → List Customer
  | [] => []
  | Op.add c now :: ops => { c with arrival_time := now } :: addedBy ops
  | _ :: ops => addedBy ops

/-- The record that `add_customer c` stores at clock reading `now`. -/
def stamped (p : Customer × Int) : Customer :=
  { p.1 with arrival_time := p.2 }

/-! ## The input file and `fscanf` -/

/-- One whitespace-separated field of the input file as a numeric `fscanf` conversion
meets it: a field that converts to an integer, or one on which the conversion fails.
The end of the list is the end of the file. -/
inductive Tok where
  | num (v : Int)
  | junk
deriving DecidableEq, Repr

/-- A call `fscanf(file, "%d %d", &a, &b)`: the two values when the call returns 2
(`none` otherwise), and the input that is left. A field on which a conversion fails
is left unread. -/
def fscanf_pair : List Tok → Option (Int × Int) × List Tok
  | Tok.num a :: Tok.num b :: rest => (some (a, b), rest)
  | Tok.num _ :: rest => (none, rest)
  | f => (none, f)

/-- The call `fscanf(file, "%i", &burst)` at line 116: the input that is left. -/
def read_burst : List Tok → List Tok
  | Tok.num _ :: rest => rest
  | f => f

/-- The loop of `main` at lines 227-230, `while (fscanf(file, "%i %i", ..) == 2) qsize++`,
run on the whole file with `qsize = q` on entry: the value of `qsize` on exit. -/
def prescan : List Tok → Int → Int
  | Tok.num _ :: Tok.num _ :: rest, q => prescan rest (wrap32 (q + 1))
  | _, q => q

/-- The number of times the loop `while (fscanf(file, "%d %d", ..) == 2)` runs its body
on the input `f`: the number of records at the front of `f`. -/
def record_count : List Tok → Nat
  | Tok.num _ :: Tok.num _ :: rest => record_count rest + 1
  | _ => 0

/-! ## Threads -/

/-- The producer thread: at the loop test of line 119 with the unread input and the
next id, or past lines 139-142. -/
inductive Producer where
  | reading (file : List Tok) (id1 : Int)
  | finished
deriving DecidableEq, Repr

/-- The three places at which a table thread ends. -/
inductive ExitPath where
  /-- the call of `pthread_exit` inside `get_customer`, line 66 -/
  | get_exit
  /-- the `break` at line 177 -/
  | check174
  /-- the `break` at line 201 -/
  | check198
deriving DecidableEq, Repr

/-- Where a table thread stands in `table_function` (lines 165-203). -/
inductive Table where
  /-- line 171: about to call `get_customer`, or parked inside it at line 57 -/
  | calling
  /-- line 174 with `c` returned: about to evaluate `c.id == 0 && done` -/
  | fetched (c : Customer)
  /-- line 174: `c.id == 0 && done` was true, about to read `qsize` -/
  | fetchedQ (c : Customer)
  /-- line 181: about to stamp `sit_time` -/
  | seating (c : Customer)
  /-- lines 184-186: seated, printing and sleeping -/
  | eating (c : Customer)
  /-- line 198: about to read `done` -/
  | leaving
  /-- line 198: `done` was true, about to read `qsize` -/
  | leavingQ
  /-- the thread has ended -/
  | stopped (via : ExitPath)
deriving DecidableEq, Repr

/-- The value `duration_cast<seconds>(d).count()` for a duration of `d` nanoseconds: the quotient
rounded towards zero. -/
def to_seconds (d : Int) : Int :=
  Int.tdiv d 1000000000

/-- What the `printf` of line 193 reports, with the record `c` it reports on. -/
structure Leave where
  customer : Customer
  turnaround_time : Int
  wait_time : Int
  table_id : Nat
deriving DecidableEq, Repr

/-- Lines 189-193 of `table_function` for the customer record `c` held by the table. -/
def leave_report (c : Customer) (table_id : Nat) : Leave :=
  { customer := c,
    turnaround_time := to_seconds (c.leave_time - c.arrival_time),
    wait_time := to_seconds (c.sit_time - c.arrival_time),
    table_id := table_id }

/-- The condition of line 174 evaluated on one state. -/
def exit_check_174 (c : Customer) (s : Shared) : Bool :=
  c.id == 0 && s.done && s.qsize == 0

/-- The condition of line 198 evaluated on one state. -/
def exit_check_198 (s : Shared) : Bool :=
  s.done && s.qsize == 0

/-- One transition of a table thread (`table_function`, lines 165-203) standing at `t`,
on the shared state `sh`, with `now` the reading of the clock should it take one:
the new position, the new shared state and the line printed at 193, if any. -/
def table_function (table_id : Nat) (sh : Shared) (now : Int) :
    Table → Table × Shared × Option Leave
  | Table.calling =>
      match get_customer sh with
      | (GetResult.waits, sh1) => (Table.calling, sh1, none)
      | (GetResult.exits, sh1) => (Table.stopped ExitPath.get_exit, sh1, none)
      | (GetResult.returns c, sh1) => (Table.fetched c, sh1, none)
  | Table.fetched c =>
      if c.id == 0 && sh.done then (Table.fetchedQ c, sh, none) else (Table.seating c, sh, none)
  | Table.fetchedQ c =>
      if sh.qsize == 0 then (Table.stopped ExitPath.check174, sh, none)
      else (Table.seating c, sh, none)
  | Table.seating c => (Table.eating { c with sit_time := now }, sh, none)
  | Table.eating c => (Table.leaving, sh, some (leave_report c table_id))
  | Table.leaving =>
      if sh.done then (Table.leavingQ, sh, none) else (Table.calling, sh, none)
  | Table.leavingQ =>
      if sh.qsize == 0 then (Table.stopped ExitPath.check198, sh, none)
      else (Table.calling, sh, none)
  | Table.stopped via => (Table.stopped via, sh, none)

/-- The local `Customer customer` of lines 127-129: the two assigned fields, and time
points that are default-constructed (the epoch). -/
def new_customer (id1 eating_time_left : Int) : Customer :=
  { id := id1, eating_time_left := eating_time_left,
    arrival_time := 0, sit_time := 0, leave_time := 0 }

/-- One transition of the producer thread (`producer_function`, lines 119-142): one
iteration of the loop (read a pair, sleep, `add_customer`, next id), or, when the read
does not return 2, the shutdown of lines 139-142. -/
def producer_function (sh : Shared) (now : Int) : Producer → Producer × Shared
  | Producer.reading file id1 =>
      match fscanf_pair file with
      | (some (_, eating_time_left), rest) =>
          (Producer.reading rest (wrap32 (id1 + 1)),
            add_customer sh (new_customer id1 eating_time_left) now)
      | (none, _) => (Producer.finished, signal_done sh)
  | Producer.finished => (Producer.finished, sh)

/-! ## The whole program -/

/-- The state of a run: the shared globals, the producer, the four tables (the table
with `table_id` `i + 1` is at index `i`) and the `Leave` lines printed so far. -/
structure Sys where
  shared : Shared
  producer : Producer
  tables : List Table
  leaves : List Leave
deriving DecidableEq, Repr

/-- Which thread makes the next transition, and the reading of the clock if it takes one. -/
inductive Event where
  | producer (now : Int)
  | table (i : Nat) (now : Int)
deriving DecidableEq, Repr

/-- One transition of the program. -/
def step (s : Sys) : Event → Sys
  | Event.producer now =>
      let r := producer_function s.shared now s.producer
      { s with producer := r.1, shared := r.2 }
  | Event.table i now =>
      match s.tables[i]? with
      | none => s
      | some t =>
          let r := table_function (i + 1) s.shared now t
          { s with tables := s.tables.set i r.1, shared := r.2.1,
                   leaves := s.leaves ++ r.2.2.toList }

/-- A run: the transitions of a schedule, one after the other. -/
def run (s : Sys) (evs : List Event) : Sys :=
  evs.foldl step s

/-- The state in which the threads start: `qsize` as the pre-scan left it, the deque
empty, `done` unset, the producer past line 116 with id 1, four tables at line 171. -/
def boot (scanned file : List Tok) : Sys :=
  { shared := { customers := [], qsize := prescan scanned 0, done := false },
    producer := Producer.reading (read_burst file) 1,
    tables := List.replicate 4 Table.calling,
    leaves := [] }

/-- The value of `EXIT_FAILURE` from `<cstdlib>`. -/
def EXIT_FAILURE : Int := 1

/-- What `main` meets outside the program: its argument count, the outcome of the two
`fopen` calls (the contents when the file opens), and the values returned by
`pthread_mutex_init`, `pthread_cond_init` and the five `pthread_create` calls in order. -/
structure MainEnv where
  argc : Int
  open_rw : Option (List Tok)
  open_r : Option (List Tok)
  mutex_init : Int
  cond_init : Int
  create : Nat → Int

/-- How `main` goes on: the process ends with an exit status after having started some
number of threads, or all five threads run from the given state. -/
inductive MainResult where
  | ended (status : Int) (threads_started : Nat)
  | running (s : Sys)
deriving DecidableEq, Repr

/-- The function `main` (lines 208-271), up to the point where all threads are created. -/
def main (e : MainEnv) : MainResult :=
  if e.argc ≠ 2 then MainResult.ended 0 0
  else
    match e.open_rw with
    | none => MainResult.ended EXIT_FAILURE 0
    | some scanned =>
      match e.open_r with
      | none => MainResult.ended EXIT_FAILURE 0
      | some file =>
        if e.mutex_init ≠ 0 then MainResult.ended EXIT_FAILURE 0
        else if e.cond_init ≠ 0 then MainResult.ended EXIT_FAILURE 0
        else if e.create 0 ≠ 0 then MainResult.ended EXIT_FAILURE 0
        else if e.create 1 ≠ 0 then MainResult.ended EXIT_FAILURE 1
        else if e.create 2 ≠ 0 then MainResult.ended EXIT_FAILURE 2
        else if e.create 3 ≠ 0 then MainResult.ended EXIT_FAILURE 3
        else if e.create 4 ≠ 0 then MainResult.ended EXIT_FAILURE 4
        else MainResult.running (boot scanned file)

/-! ## Schedules, clocks and the invariant of a run -/

/-- The clock reading carried by a transition. -/
def Event.now : Event → Int
  | Event.producer now => now
  | Event.table _ now => now

/-- The clock never goes backwards along a schedule. -/
def clock_monotone : List Event → Bool
  | e1 :: e2 :: rest => decide (e1.now ≤ e2.now) && clock_monotone (e2 :: rest)
  | _ => true

/-- The table has read `done` as true at line 174 or 198 and is about to read `qsize`. -/
def Table.has_read_done : Table → Bool
  | Table.fetchedQ _ => true
  | Table.leavingQ => true
  | _ => false

/-- The table thread has ended. -/
def Table.is_stopped : Table → Bool
  | Table.stopped _ => true
  | _ => false

/-- The number of records the producer has still to read. -/
def Producer.remaining : Producer → Nat
  | Producer.reading file _ => record_count file
  | Producer.finished => 0

/-- What holds in every state of a run that started with `qsize = n0`, when `n0` plus
the number of records the producer reads stays within the range of `int`. -/
def Inv (n0 : Int) (s : Sys) : Prop :=
  0 ≤ n0 ∧
  n0 + s.shared.customers.length + s.producer.remaining < 2147483648 ∧
  s.shared.qsize = n0 + s.shared.customers.length ∧
  (s.shared.done = true ↔ s.producer = Producer.finished) ∧
  (∀ t ∈ s.tables, t.has_read_done = true → s.shared.done = true) ∧
  (0 < n0 → ∀ t ∈ s.tables, ∀ via, t = Table.stopped via → via = ExitPath.get_exit)

/-- The customer a table holds between `get_customer` and the stamp of line 181. -/
def Table.unseated? : Table → Option Customer
  | Table.fetched c => some c
  | Table.fetchedQ c => some c
  | Table.seating c => some c
  | _ => none

/-- The customer a table holds after the stamp of line 181. -/
def Table.seated? : Table → Option Customer
  | Table.eating c => some c
  | _ => none

/-- A customer record stamped by `add_customer` no later than `T` whose `leave_time`
is still the epoch. -/
def Customer.arrived_by (T : Int) (c : Customer) : Prop :=
  c.arrival_time ≤ T ∧ c.leave_time = 0

/-- A customer record whose sit stamp is not before its arrival stamp and whose
`leave_time` is still the epoch. -/
def Customer.seated_ok (c : Customer) : Prop :=
  c.arrival_time ≤ c.sit_time ∧ c.leave_time = 0

/-- What holds of the time stamps in a run whose clock readings so far are at most `T`. -/
def TimeInv (T : Int) (s : Sys) : Prop :=
  (∀ c ∈ s.shared.customers, c.arrived_by T) ∧
  (∀ t ∈ s.tables, ∀ c, t.unseated? = some c → c.arrived_by T) ∧
  (∀ t ∈ s.tables, ∀ c, t.seated? = some c → c.seated_ok) ∧
  (∀ l ∈ s.leaves, l.customer.seated_ok ∧ l = leave_report l.customer l.table_id)

/-! ## A concrete run -/

/-- An input file `1 0 2`: the burst field `1`, then one customer arriving after `0`
seconds who eats for `2` seconds. -/
def example_file : List Tok :=
  [Tok.num 1, Tok.num 0, Tok.num 2]

/-- An invocation with one argument naming `example_file`, in which every library
call succeeds. -/
def example_env : MainEnv :=
  { argc := 2, open_rw := some example_file, open_r := some example_file,
    mutex_init := 0, cond_init := 0, create := fun _ => 0 }

/-- A schedule for `example_file` under a clock that starts at 5 s: the producer adds
the customer; table 1 fetches it, passes line 174, seats it, lets it eat for 2 s and
prints its `Leave` line. -/
def example_service : List Event :=
  [Event.producer 5000000000, Event.table 0 5000000000, Event.table 0 5000000000,
   Event.table 0 5000000000, Event.table 0 7000000000]

/-- The schedule `example_service` continued: table 1 passes line 198 and the producer
reaches the end of the file and sets `done`. -/
def example_closing : List Event :=
  example_service ++ [Event.table 0 7000000000, Event.producer 7000000000]

/-! ## The monitor on its own -/

theorem runOps_append (s : Shared) (ops1 ops2 : List Op) :
    runOps s (ops1 ++ ops2) =
      ((runOps (runOps s ops1).1 ops2).1,
        (runOps s ops1).2 ++ (runOps (runOps s ops1).1 ops2).2) := by
  induction ops1 generalizing s with
  | nil => simp [runOps]
  | cons op ops1 ih =>
    cases op <;> simp [runOps, ih]

theorem runOps_adds (s : Shared) (cs : List (Customer × Int)) :
    (runOps s (cs.map (fun p => Op.add p.1 p.2))).1.customers
      = s.customers ++ cs.map stamped ∧
    (runOps s (cs.map (fun p => Op.add p.1 p.2))).2 = [] := by
  induction cs generalizing s with
  | nil => simp [runOps]
  | cons p cs ih =>
    obtain ⟨h1, h2⟩ := ih (add_customer s p.1 p.2)
    simp only [List.map_cons, runOps, h1, h2, and_true]
    simp [add_customer, stamped]

theorem runOps_gets (l : List Customer) (s : Shared) (hl : s.customers = l) :
    (runOps s (List.replicate l.length Op.get)).1.customers = [] ∧
    (runOps s (List.replicate l.length Op.get)).2 = l.map GetResult.returns := by
  induction l generalizing s with
  | nil => simp [runOps, hl]
  | cons c l ih =>
    obtain ⟨h1, h2⟩ := ih (get_customer s).2 (by simp [get_customer, hl])
    simp only [List.length_cons, List.replicate_succ, runOps, h1, h2, List.map_cons, true_and]
    simp [get_customer, hl]

theorem runOps_conservation (s : Shared) (ops : List Op) :
    (runOps s ops).2.filterMap GetResult.customer? ++ (runOps s ops).1.customers =
      s.customers ++ addedBy ops := by
  induction ops generalizing s with
  | nil => simp [runOps, addedBy]
  | cons op ops ih =>
    cases op with
    | add c now => simp [runOps, addedBy, ih, add_customer]
    | get =>
      cases hs : s.customers with
      | nil =>
        by_cases hd : s.done = true
        · simp [runOps, addedBy, ih, get_customer, hs, hd, GetResult.customer?]
        · simp [runOps, addedBy, ih, get_customer, hs, hd, GetResult.customer?]
      | cons c rest =>
        simp [runOps, addedBy, ih, get_customer, hs, GetResult.customer?]
    | shutdown => simp [runOps, addedBy, ih, signal_done]

theorem runOps_done (s : Shared) (ops : List Op) (h : s.done = true) :
    (runOps s ops).1.done = true := by
  induction ops generalizing s with
  | nil => simpa [runOps] using h
  | cons op ops ih =>
    cases op with
    | add c now => exact ih _ (by simpa [add_customer] using h)
    | get =>
      simp only [runOps]
      apply ih
      cases hs : s.customers <;> simp [get_customer, hs, h]
    | shutdown => exact ih _ (by simp [signal_done])

theorem get_customer_shutdown (s : Shared) (hd : s.done = true) (he : s.customers = []) :
    get_customer s = (GetResult.exits, s) := by
  simp [get_customer, he, hd]

theorem runOps_gets_shutdown (s : Shared) (hd : s.done = true) (he : s.customers = [])
    (n : Nat) :
    runOps s (List.replicate n Op.get) = (s, List.replicate n GetResult.exits) := by
  induction n with
  | zero => simp [runOps]
  | succ n ih => simp [List.replicate_succ, runOps, get_customer_shutdown s hd he, ih]

/-! ## Runs of the whole program -/

theorem wrap32_of_range (x : Int) (hlo : -2147483648 ≤ x) (hhi : x < 2147483648) :
    wrap32 x = x := by
  unfold wrap32
  omega

/-- At the top of the `int` range the increment of line 93 wraps: from
`qsize = 2147483647` an `add_customer` leaves `qsize = -2147483648`. -/
theorem add_customer_wraps (c : Customer) (now : Int) (d : Bool) :
    (add_customer { customers := [], qsize := 2147483647, done := d } c now).qsize
      = -2147483648 := by
  simp [add_customer, wrap32]

theorem record_count_of_pair (f rest : List Tok) (p : Int × Int)
    (h : fscanf_pair f = (some p, rest)) : record_count f = record_count rest + 1 := by
  match f with
  | [] => simp [fscanf_pair] at h
  | [Tok.num _] => simp [fscanf_pair] at h
  | Tok.junk :: _ => simp [fscanf_pair] at h
  | Tok.num _ :: Tok.junk :: _ => simp [fscanf_pair] at h
  | Tok.num _ :: Tok.num _ :: rest2 =>
    simp only [fscanf_pair, Prod.mk.injEq] at h
    rw [← h.2]
    simp [record_count]

theorem prescan_eq : ∀ (f : List Tok) (q : Int), -2147483648 ≤ q →
    q + record_count f < 2147483648 → prescan f q = q + record_count f
  | [], q, _, _ => by simp [prescan, record_count]
  | [_], q, _, _ => by simp [prescan, record_count]
  | Tok.junk :: _ :: _, q, _, _ => by simp [prescan, record_count]
  | Tok.num _ :: Tok.junk :: _, q, _, _ => by simp [prescan, record_count]
  | Tok.num _ :: Tok.num _ :: rest, q, hlo, hhi => by
      simp only [record_count, Nat.cast_add, Nat.cast_one] at hhi
      have hw : wrap32 (q + 1) = q + 1 := wrap32_of_range _ (by omega) (by omega)
      have h := prescan_eq rest (q + 1) (by omega) (by omega)
      simp only [prescan, record_count, hw, h, Nat.cast_add, Nat.cast_one]
      omega

theorem prescan_unfold (f : List Tok) (q : Int) :
    prescan f q =
      match fscanf_pair f with
      | (some _, rest) => prescan rest (wrap32 (q + 1))
      | (none, _) => q := by
  match f with
  | [] => simp [prescan, fscanf_pair]
  | [Tok.num _] => simp [prescan, fscanf_pair]
  | Tok.junk :: _ => simp [prescan, fscanf_pair]
  | Tok.num _ :: Tok.junk :: _ => simp [prescan, fscanf_pair]
  | Tok.num _ :: Tok.num _ :: rest => simp [prescan, fscanf_pair]

theorem run_append (s : Sys) (evs1 evs2 : List Event) :
    run s (evs1 ++ evs2) = run (run s evs1) evs2 := by
  simp [run, List.foldl_append]

theorem run_cons (s : Sys) (ev : Event) (evs : List Event) :
    run s (ev :: evs) = run (step s ev) evs := rfl

theorem Inv_boot (scanned file : List Tok)
    (hbound : record_count scanned + record_count (read_burst file) < 2147483648) :
    Inv (prescan scanned 0) (boot scanned file) := by
  have hn0 : prescan scanned 0 = (record_count scanned : Int) := by
    rw [prescan_eq scanned 0 (by omega) (by omega)]
    omega
  refine ⟨by omega, ?_, ?_, ?_, ?_, ?_⟩
  · simp only [boot, Producer.remaining, List.length_nil]
    omega
  · simp [boot]
  · simp [boot]
  · intro t ht
    simp only [boot, List.mem_replicate] at ht
    simp [ht.2, Table.has_read_done]
  · intro _ t ht via hv
    simp only [boot, List.mem_replicate] at ht
    rw [ht.2] at hv
    cases hv

theorem mem_set_cases {P : Table → Prop} {l : List Table} {i : Nat} {t x : Table}
    (hl : ∀ y ∈ l, P y) (ht : P t) (hx : x ∈ l.set i t) : P x := by
  rcases List.mem_or_eq_of_mem_set hx with h | h
  · exact hl x h
  · rw [h]
    exact ht

theorem table_function_shared (table_id : Nat) (sh : Shared) (now : Int) (t : Table)
    (n0 : Int) (h0 : 0 ≤ n0) (hq : sh.qsize = n0 + sh.customers.length)
    (hb : n0 + sh.customers.length < 2147483648) :
    (table_function table_id sh now t).2.1.done = sh.done ∧
    (table_function table_id sh now t).2.1.qsize
      = n0 + ((table_function table_id sh now t).2.1.customers.length : Int) ∧
    (table_function table_id sh now t).2.1.customers.length ≤ sh.customers.length := by
  cases t with
  | calling =>
    cases hc : sh.customers with
    | nil =>
      cases hd : sh.done <;> simp [table_function, get_customer, hc, hd] <;>
        simpa [hc] using hq
    | cons c rest =>
      rw [hc] at hq hb
      simp only [List.length_cons, Nat.cast_add, Nat.cast_one] at hq hb
      have hw : wrap32 (sh.qsize - 1) = sh.qsize - 1 :=
        wrap32_of_range _ (by omega) (by omega)
      simp only [table_function, get_customer, hc, hw, List.length_cons, true_and]
      omega
  | fetched c =>
    by_cases h : (c.id == 0 && sh.done) = true <;> simp [table_function, h] <;> exact hq
  | fetchedQ c =>
    by_cases h : (sh.qsize == 0) = true <;> simp only [table_function, h] <;>
      exact ⟨rfl, hq, le_refl _⟩
  | seating c => exact ⟨rfl, hq, le_refl _⟩
  | eating c => exact ⟨rfl, hq, le_refl _⟩
  | leaving => cases hd : sh.done <;> simp [table_function, hd] <;> exact hq
  | leavingQ =>
    by_cases h : (sh.qsize == 0) = true <;> simp only [table_function, h] <;>
      exact ⟨rfl, hq, le_refl _⟩
  | stopped v => exact ⟨rfl, hq, le_refl _⟩

theorem table_function_read_done (table_id : Nat) (sh : Shared) (now : Int) (t : Table)
    (ht : t.has_read_done = true → sh.done = true)
    (h : (table_function table_id sh now t).1.has_read_done = true) : sh.done = true := by
  cases t with
  | calling =>
    cases hc : sh.customers with
    | nil =>
      cases hd : sh.done <;>
        simp [table_function, get_customer, hc, hd, Table.has_read_done] at h
    | cons c rest => simp [table_function, get_customer, hc, Table.has_read_done] at h
  | fetched c =>
    by_cases hcond : (c.id == 0 && sh.done) = true
    · simp only [Bool.and_eq_true] at hcond
      exact hcond.2
    · simp [table_function, hcond, Table.has_read_done] at h
  | fetchedQ c => exact ht rfl
  | seating c => simp [table_function, Table.has_read_done] at h
  | eating c => simp [table_function, Table.has_read_done] at h
  | leaving =>
    cases hd : sh.done with
    | true => rfl
    | false => simp [table_function, hd, Table.has_read_done] at h
  | leavingQ => exact ht rfl
  | stopped v => simp [table_function, Table.has_read_done] at h

theorem table_function_via (table_id : Nat) (sh : Shared) (now : Int) (t : Table) (n0 : Int)
    (hq : sh.qsize = n0 + sh.customers.length) (hpos : 0 < n0)
    (ht : ∀ via, t = Table.stopped via → via = ExitPath.get_exit) (via : ExitPath)
    (h : (table_function table_id sh now t).1 = Table.stopped via) : via = ExitPath.get_exit := by
  have hne : ¬ (sh.qsize == 0) = true := by
    intro h0
    have hz : sh.qsize = 0 := by simpa using h0
    omega
  cases t with
  | calling =>
    cases hc : sh.customers with
    | nil =>
      cases hd : sh.done with
      | false => simp [table_function, get_customer, hc, hd] at h
      | true =>
        simp only [table_function, get_customer, hc, hd, if_true, Table.stopped.injEq] at h
        exact h.symm
    | cons c rest => simp [table_function, get_customer, hc] at h
  | fetched c =>
    by_cases hcond : (c.id == 0 && sh.done) = true <;> simp [table_function, hcond] at h
  | fetchedQ c => simp [table_function, hne] at h
  | seating c => simp [table_function] at h
  | eating c => simp [table_function] at h
  | leaving => cases hd : sh.done <;> simp [table_function, hd] at h
  | leavingQ => simp [table_function, hne] at h
  | stopped v =>
    simp only [table_function, Table.stopped.injEq] at h
    rw [← h]
    exact ht v rfl

theorem Inv_step (n0 : Int) (s : Sys) (ev : Event) (h : Inv n0 s) : Inv n0 (step s ev) := by
  obtain ⟨h0, hb, hq, hd, hr, hx⟩ := h
  cases ev with
  | producer now =>
    cases hp : s.producer with
    | finished =>
      simp only [step, producer_function, hp]
      rw [hp] at hb
      exact ⟨h0, hb, hq, by simpa [hp] using hd, hr, hx⟩
    | reading file id1 =>
      rw [hp] at hb
      simp only [Producer.remaining] at hb
      rcases hf : fscanf_pair file with ⟨_ | ⟨a, b⟩, rest⟩
      · simp only [step, producer_function, hp, hf, signal_done]
        refine ⟨h0, ?_, hq, by simp, fun _ _ _ => rfl, hx⟩
        simp only [Producer.remaining]
        omega
      · have hnd : s.shared.done = false := by
          cases hdd : s.shared.done with
          | false => rfl
          | true => rw [hd.1 hdd] at hp; cases hp
        have hrc : record_count file = record_count rest + 1 :=
          record_count_of_pair file rest (a, b) hf
        have hw : wrap32 (s.shared.qsize + 1) = s.shared.qsize + 1 :=
          wrap32_of_range _ (by omega) (by omega)
        simp only [step, producer_function, hp, hf, add_customer, hw]
        refine ⟨h0, ?_, ?_, by simp [hnd], hr, hx⟩
        · simp only [List.length_append, List.length_singleton, Nat.cast_add, Nat.cast_one,
            Producer.remaining]
          omega
        · simp only [List.length_append, List.length_singleton, Nat.cast_add, Nat.cast_one]
          omega
  | table i now =>
    cases ht : s.tables[i]? with
    | none =>
      simp only [step, ht]
      exact ⟨h0, hb, hq, hd, hr, hx⟩
    | some t =>
      have hmem : t ∈ s.tables := List.getElem?_mem ht
      obtain ⟨k1, k2, k3⟩ :=
        table_function_shared (i + 1) s.shared now t n0 h0 hq (by omega)
      simp only [step, ht]
      refine ⟨h0, ?_, k2, by rw [k1]; exact hd, ?_, ?_⟩
      · show n0 + ((table_function (i + 1) s.shared now t).2.1.customers.length : Int)
            + (s.producer.remaining : Int) < 2147483648
        omega
      · intro x hx2 hrd
        show (table_function (i + 1) s.shared now t).2.1.done = true
        rw [k1]
        exact mem_set_cases (P := fun y => y.has_read_done = true → s.shared.done = true)
          hr (table_function_read_done (i + 1) s.shared now t (hr t hmem)) hx2 hrd
      · intro hpos x hx2 via hv
        exact mem_set_cases
          (P := fun y => ∀ via, y = Table.stopped via → via = ExitPath.get_exit)
          (hx hpos) (table_function_via (i + 1) s.shared now t n0 hq hpos (hx hpos t hmem)) hx2
          via hv

theorem Inv_run (n0 : Int) (s : Sys) (evs : List Event) (h : Inv n0 s) : Inv n0 (run s evs) := by
  induction evs generalizing s with
  | nil => exact h
  | cons ev evs ih => exact ih (step s ev) (Inv_step n0 s ev h)

theorem table_function_stops (n0 : Int) (s : Sys) (table_id : Nat) (now : Int) (t : Table)
    (via : ExitPath) (h : Inv n0 s) (hmem : t ∈ s.tables) (hns : t.is_stopped = false)
    (hstop : (table_function table_id s.shared now t).1 = Table.stopped via) :
    s.shared.customers = [] ∧ s.shared.done = true := by
  obtain ⟨h0, _, hq, _, hr, _⟩ := h
  cases t with
  | calling =>
    cases hc : s.shared.customers with
    | nil =>
      cases hdd : s.shared.done with
      | true => exact ⟨rfl, rfl⟩
      | false => simp [table_function, get_customer, hc, hdd] at hstop
    | cons c rest => simp [table_function, get_customer, hc] at hstop
  | fetched c =>
    by_cases hcond : (c.id == 0 && s.shared.done) = true
    · simp [table_function, hcond] at hstop
    · simp [table_function, hcond] at hstop
  | fetchedQ c =>
    by_cases hcond : (s.shared.qsize == 0) = true
    · have hz : s.shared.qsize = 0 := by simpa using hcond
      refine ⟨List.length_eq_zero.mp ?_, hr _ hmem rfl⟩
      omega
    · simp [table_function, hcond] at hstop
  | seating c => simp [table_function] at hstop
  | eating c => simp [table_function] at hstop
  | leaving =>
    cases hdd : s.shared.done <;> simp [table_function, hdd] at hstop
  | leavingQ =>
    by_cases hcond : (s.shared.qsize == 0) = true
    · have hz : s.shared.qsize = 0 := by simpa using hcond
      refine ⟨List.length_eq_zero.mp ?_, hr _ hmem rfl⟩
      omega
    · simp [table_function, hcond] at hstop
  | stopped v => simp [Table.is_stopped] at hns

theorem step_drained (s : Sys) (ev : Event)
    (he : s.shared.customers = []) (hd : s.shared.done = true)
    (hp : s.producer = Producer.finished) :
    (step s ev).shared = s.shared ∧ (step s ev).producer = Producer.finished := by
  cases ev with
  | producer now => simp [step, producer_function, hp]
  | table i now =>
    cases ht : s.tables[i]? with
    | none => simp [step, ht, hp]
    | some t =>
      simp only [step, ht, hp, and_true]
      cases t with
      | calling => simp [table_function, get_customer, he, hd]
      | fetched c => by_cases hc : (c.id == 0 && s.shared.done) = true <;> simp [table_function, hc]
      | fetchedQ c => by_cases hc : (s.shared.qsize == 0) = true <;> simp [table_function, hc]
      | seating c => simp [table_function]
      | eating c => simp [table_function]
      | leaving => simp [table_function, hd]
      | leavingQ => by_cases hc : (s.shared.qsize == 0) = true <;> simp [table_function, hc]
      | stopped v => simp [table_function]

theorem run_drained (s : Sys) (evs : List Event)
    (he : s.shared.customers = []) (hd : s.shared.done = true)
    (hp : s.producer = Producer.finished) :
    (run s evs).shared = s.shared ∧ (run s evs).producer = Producer.finished := by
  induction evs generalizing s with
  | nil => exact ⟨rfl, hp⟩
  | cons ev evs ih =>
    obtain ⟨h1, h2⟩ := step_drained s ev he hd hp
    obtain ⟨h3, h4⟩ := ih (step s ev) (by rw [h1]; exact he) (by rw [h1]; exact hd) h2
    exact ⟨by rw [run_cons, h3, h1], by rw [run_cons]; exact h4⟩

theorem step_tables_other (s : Sys) (ev : Event) (i : Nat)
    (h : ∀ now, ev ≠ Event.table i now) : (step s ev).tables[i]? = s.tables[i]? := by
  cases ev with
  | producer now => simp [step]
  | table j now =>
    have hne : j ≠ i := by
      intro hji
      exact h now (by rw [hji])
    cases ht : s.tables[j]? with
    | none => simp [step, ht]
    | some t => simp [step, ht, List.getElem?_set_ne hne]

theorem count_returns (log : List GetResult) (c : Customer) :
    log.count (GetResult.returns c) = (log.filterMap GetResult.customer?).count c := by
  induction log with
  | nil => rfl
  | cons r log ih =>
    cases r with
    | waits => simp [GetResult.customer?, ih]
    | exits => simp [GetResult.customer?, ih]
    | returns c2 =>
      by_cases hc : c2 = c
      · simp [GetResult.customer?, ih, hc]
      · have hne : ¬ (GetResult.returns c2 = GetResult.returns c) := by
          intro h
          exact hc (GetResult.returns.inj h)
        simp [GetResult.customer?, ih, List.count_cons, hc, hne]

/-! ## The claims -/

/-- C1 (FIFO order). Starting from an empty deque (whatever `qsize` and `done` are),
after `add_customer` has been called on each customer of `cs` in order, each with its
own clock reading, `cs.length` successive `get_customer` calls all return a customer;
the `k`-th call returns the `k`-th customer added, with the arrival stamp it was given
by `add_customer` and all other fields as passed in; the deque is empty afterwards. -/
theorem fifo_order (q : Int) (d : Bool) (cs : List (Customer × Int)) :
    (runOps { customers := [], qsize := q, done := d }
        (cs.map (fun p => Op.add p.1 p.2) ++ List.replicate cs.length Op.get)).2
      = cs.map (fun p => GetResult.returns { p.1 with arrival_time := p.2 }) ∧
    (∀ k : Nat,
      (runOps { customers := [], qsize := q, done := d }
        (cs.map (fun p => Op.add p.1 p.2) ++ List.replicate cs.length Op.get)).2[k]?
      = (cs[k]?).map (fun p => GetResult.returns { p.1 with arrival_time := p.2 })) ∧
    (runOps { customers := [], qsize := q, done := d }
        (cs.map (fun p => Op.add p.1 p.2) ++ List.replicate cs.length Op.get)).1.customers
      = [] := by
  obtain ⟨ha1, ha2⟩ :=
    runOps_adds { customers := [], qsize := q, done := d } cs
  obtain ⟨hg1, hg2⟩ :=
    runOps_gets (cs.map stamped)
      (runOps { customers := [], qsize := q, done := d }
        (cs.map (fun p => Op.add p.1 p.2))).1
      (by rw [ha1]; rfl)
  rw [List.length_map] at hg1 hg2
  have hlog : (runOps { customers := [], qsize := q, done := d }
        (cs.map (fun p => Op.add p.1 p.2) ++ List.replicate cs.length Op.get)).2
      = cs.map (fun p => GetResult.returns { p.1 with arrival_time := p.2 }) := by
    rw [runOps_append]
    simp only [ha2, hg2, List.nil_append, List.map_map]
    rfl
  refine ⟨hlog, ?_, ?_⟩
  · intro k
    rw [hlog, List.getElem?_map]
  · rw [runOps_append]
    exact hg1

/-- C2 (no loss, no duplication). For every sequence of `add_customer`, `get_customer`
and shutdown calls applied one at a time from an empty deque, the customers returned
by the `get_customer` calls so far followed by the customers still in the deque are
exactly the customers added so far, in the order they were added. So when the deque
ends empty, the returned customers are the added ones: as lists, as multisets, and
for each customer the number of `get_customer` calls that returned it equals the
number of times it was added. -/
theorem no_loss_no_duplication (q : Int) (d : Bool) (ops : List Op) :
    (runOps { customers := [], qsize := q, done := d } ops).2.filterMap GetResult.customer?
        ++ (runOps { customers := [], qsize := q, done := d } ops).1.customers
      = addedBy ops ∧
    ((runOps { customers := [], qsize := q, done := d } ops).1.customers = [] →
      (runOps { customers := [], qsize := q, done := d } ops).2.filterMap GetResult.customer?
        = addedBy ops ∧
      (((runOps { customers := [], qsize := q, done := d } ops).2.filterMap
          GetResult.customer? : List Customer) : Multiset Customer)
        = ((addedBy ops : List Customer) : Multiset Customer) ∧
      ∀ c : Customer,
        (runOps { customers := [], qsize := q, done := d } ops).2.count (GetResult.returns c)
          = (addedBy ops).count c) := by
  have h := runOps_conservation { customers := [], qsize := q, done := d } ops
  simp only [List.nil_append] at h
  refine ⟨h, ?_⟩
  intro he
  rw [he, List.append_nil] at h
  refine ⟨h, by rw [h], ?_⟩
  intro c
  rw [count_returns, h]

/-- A concrete instance of C2: two customers added and fetched in alternation. -/
theorem no_loss_no_duplication_witness :
    (runOps { customers := [], qsize := 0, done := false }
        [Op.add (new_customer 1 2) 5, Op.get, Op.get, Op.add (new_customer 2 3) 6, Op.shutdown,
         Op.get, Op.get]).1.customers = [] ∧
    (runOps { customers := [], qsize := 0, done := false }
        [Op.add (new_customer 1 2) 5, Op.get, Op.get, Op.add (new_customer 2 3) 6, Op.shutdown,
         Op.get, Op.get]).2.filterMap GetResult.customer?
      = addedBy [Op.add (new_customer 1 2) 5, Op.get, Op.get, Op.add (new_customer 2 3) 6,
          Op.shutdown, Op.get, Op.get] :=
  ⟨by decide,
   ((no_loss_no_duplication 0 false
      [Op.add (new_customer 1 2) 5, Op.get, Op.get, Op.add (new_customer 2 3) 6, Op.shutdown,
       Op.get, Op.get]).2 (by decide)).1⟩

/-- C3 (shutdown visibility). Take any state, let the producer set `done` (lines
139-142) and let any further monitor calls follow. If the deque is empty in the state
`s` then reached, `get_customer` on `s` neither waits nor returns a customer: it takes
the exit of lines 62-67 and leaves `s` (deque, `qsize`, `done`) as it is; hence any
number of further calls, by whichever tables, all take that exit, and a table standing
at line 171 stops through that exit without changing the shared state. -/
theorem shutdown_visibility (s0 : Shared) (ops : List Op)
    (he : (runOps (signal_done s0) ops).1.customers = []) :
    (runOps (signal_done s0) ops).1.done = true ∧
    get_customer (runOps (signal_done s0) ops).1
      = (GetResult.exits, (runOps (signal_done s0) ops).1) ∧
    (∀ n : Nat, runOps (runOps (signal_done s0) ops).1 (List.replicate n Op.get)
      = ((runOps (signal_done s0) ops).1, List.replicate n GetResult.exits)) ∧
    (∀ (table_id : Nat) (now : Int),
      table_function table_id (runOps (signal_done s0) ops).1 now Table.calling
        = (Table.stopped ExitPath.get_exit, (runOps (signal_done s0) ops).1, none)) := by
  have hd : (runOps (signal_done s0) ops).1.done = true :=
    runOps_done (signal_done s0) ops rfl
  refine ⟨hd, get_customer_shutdown _ hd he, fun n => runOps_gets_shutdown _ hd he n, ?_⟩
  intro table_id now
  simp [table_function, get_customer_shutdown _ hd he]

/-- A concrete instance of C3: one customer is queued, `done` is set, the customer is
fetched, and the next call exits. -/
theorem shutdown_visibility_witness :
    (runOps (signal_done (add_customer { customers := [], qsize := 1, done := false }
        (new_customer 1 2) 5)) [Op.get]).1.customers = [] ∧
    get_customer (runOps (signal_done (add_customer { customers := [], qsize := 1, done := false }
        (new_customer 1 2) 5)) [Op.get]).1
      = (GetResult.exits, (runOps (signal_done (add_customer
          { customers := [], qsize := 1, done := false } (new_customer 1 2) 5)) [Op.get]).1) :=
  ⟨by decide,
   (shutdown_visibility (add_customer { customers := [], qsize := 1, done := false }
      (new_customer 1 2) 5) [Op.get] (by decide)).2.1⟩

/-- C4 (no premature shutdown). Let the input hold fewer than 2^31 records in all (those
counted by the pre-scan plus those read by the producer), so that the `int` counter
`qsize` never leaves its range. In every run from the state `main` sets up, under every
schedule: if table `i` has not ended before a transition and has ended after it
(through the exit of `get_customer` at lines 62-67 or through either `break` of
`table_function`, lines 174 and 198), then in the state in which it stops the deque
is empty, `done` is set and the producer is past its loop; and in every later state
of the run the deque is still empty, so no customer is added afterwards. -/
theorem no_premature_shutdown (scanned file : List Tok) (evs : List Event) (ev : Event)
    (i : Nat)
    (hbound : record_count scanned + record_count (read_burst file) < 2147483648)
    (hbefore : ((run (boot scanned file) evs).tables[i]?).map Table.is_stopped = some false)
    (hafter : ((step (run (boot scanned file) evs) ev).tables[i]?).map Table.is_stopped
      = some true) :
    (run (boot scanned file) evs).shared.customers = [] ∧
    (run (boot scanned file) evs).shared.done = true ∧
    (run (boot scanned file) evs).producer = Producer.finished ∧
    ∀ later : List Event,
      (run (run (boot scanned file) evs) later).shared.customers = [] ∧
      (run (run (boot scanned file) evs) later).shared.done = true ∧
      (run (run (boot scanned file) evs) later).producer = Producer.finished := by
  have hinv : Inv (prescan scanned 0) (run (boot scanned file) evs) :=
    Inv_run _ _ evs (Inv_boot scanned file hbound)
  generalize run (boot scanned file) evs = s at hbefore hafter hinv ⊢
  have hstop : s.shared.customers = [] ∧ s.shared.done = true := by
    cases ev with
    | producer now =>
      rw [step_tables_other s (Event.producer now) i (fun _ h => by cases h), hbefore] at hafter
      cases hafter
    | table j now =>
      by_cases hji : j = i
      · subst hji
        cases ht : s.tables[j]? with
        | none => simp [ht] at hbefore
        | some t =>
          have hns : t.is_stopped = false := by simpa [ht] using hbefore
          have hlt : j < s.tables.length := by
            rcases List.getElem?_eq_some.mp ht with ⟨hlt, _⟩
            exact hlt
          simp only [step, ht, List.getElem?_set_self hlt, Option.map_some', Option.some.injEq]
            at hafter
          cases hres : (table_function (j + 1) s.shared now t).1 with
          | stopped via =>
            exact table_function_stops _ s (j + 1) now t via hinv (List.getElem?_mem ht) hns hres
          | calling => simp [hres, Table.is_stopped] at hafter
          | fetched c => simp [hres, Table.is_stopped] at hafter
          | fetchedQ c => simp [hres, Table.is_stopped] at hafter
          | seating c => simp [hres, Table.is_stopped] at hafter
          | eating c => simp [hres, Table.is_stopped] at hafter
          | leaving => simp [hres, Table.is_stopped] at hafter
          | leavingQ => simp [hres, Table.is_stopped] at hafter
      · rw [step_tables_other s (Event.table j now) i
          (fun _ h => hji (by cases h; rfl)), hbefore] at hafter
        cases hafter
  have hp : s.producer = Producer.finished := hinv.2.2.2.1.mp hstop.2
  refine ⟨hstop.1, hstop.2, hp, ?_⟩
  intro later
  obtain ⟨h1, h2⟩ := run_drained s later hstop.1 hstop.2 hp
  exact ⟨by rw [h1]; exact hstop.1, by rw [h1]; exact hstop.2, h2⟩

/-- A concrete instance of C4: in `example_closing` the customer has been served and
`done` is set; table 1 then calls `get_customer` and stops. -/
theorem no_premature_shutdown_witness :
    record_count example_file + record_count (read_burst example_file) < 2147483648 ∧
    ((run (boot example_file example_file) example_closing).tables[0]?).map Table.is_stopped
      = some false ∧
    ((step (run (boot example_file example_file) example_closing)
        (Event.table 0 7000000000)).tables[0]?).map Table.is_stopped = some true ∧
    (run (boot example_file example_file) example_closing).shared.customers = [] ∧
    (run (boot example_file example_file) example_closing).shared.done = true :=
  ⟨by decide, by decide, by decide,
   (no_premature_shutdown example_file example_file example_closing
      (Event.table 0 7000000000) 0 (by decide) (by decide) (by decide)).1,
   (no_premature_shutdown example_file example_file example_closing
      (Event.table 0 7000000000) 0 (by decide) (by decide) (by decide)).2.1⟩

theorem main_running (e : MainEnv) (s0 : Sys) (h : main e = MainResult.running s0) :
    ∃ scanned file, e.open_rw = some scanned ∧ e.open_r = some file ∧
      s0 = boot scanned file := by
  unfold main at h
  by_cases ha : e.argc ≠ 2
  · simp [ha] at h
  · cases hrw : e.open_rw with
    | none => simp [ha, hrw] at h
    | some scanned =>
      cases hr : e.open_r with
      | none => simp [ha, hrw, hr] at h
      | some file =>
        simp only [ha, hrw, hr, if_false] at h
        split_ifs at h
        cases h
        exact ⟨scanned, file, rfl, rfl, rfl⟩

theorem addedBy_length_cons_add (c : Customer) (now : Int) (ops : List Op) :
    (addedBy (Op.add c now :: ops)).length = (addedBy ops).length + 1 := by
  simp [addedBy]

theorem runOps_qsize (s : Shared) (ops : List Op) (n0 : Int) (h0 : 0 ≤ n0)
    (h : s.qsize = n0 + s.customers.length)
    (hb : n0 + s.customers.length + (addedBy ops).length < 2147483648) :
    (runOps s ops).1.qsize = n0 + (runOps s ops).1.customers.length := by
  induction ops generalizing s with
  | nil => simpa [runOps] using h
  | cons op ops ih =>
    cases op with
    | add c now =>
      rw [addedBy_length_cons_add] at hb
      simp only [Nat.cast_add, Nat.cast_one] at hb
      have hw : wrap32 (s.qsize + 1) = s.qsize + 1 :=
        wrap32_of_range _ (by omega) (by omega)
      apply ih
      · simp only [add_customer, hw, List.length_append, List.length_singleton, Nat.cast_add,
          Nat.cast_one]
        omega
      · simp only [add_customer, List.length_append, List.length_singleton, Nat.cast_add,
          Nat.cast_one]
        omega
    | get =>
      have hb2 : n0 + s.customers.length + (addedBy ops).length < 2147483648 := by
        simpa [addedBy] using hb
      simp only [runOps]
      cases hs : s.customers with
      | nil =>
        rw [hs] at hb2 h
        cases hd : s.done <;> simp only [get_customer, hs, hd] <;> apply ih <;> simp [hs, h] <;>
          simpa using hb2
      | cons c rest =>
        rw [hs] at h hb2
        simp only [List.length_cons, Nat.cast_add, Nat.cast_one] at h hb2
        have hw : wrap32 (s.qsize - 1) = s.qsize - 1 :=
          wrap32_of_range _ (by omega) (by omega)
        simp only [get_customer, hs, hw]
        apply ih
        · show s.qsize - 1 = n0 + (rest.length : Int)
          omega
        · show n0 + (rest.length : Int) + ((addedBy ops).length : Int) < 2147483648
          omega
    | shutdown =>
      have hb2 : n0 + s.customers.length + (addedBy ops).length < 2147483648 := by
        simpa [addedBy] using hb
      apply ih
      · simpa [signal_done] using h
      · simpa [signal_done] using hb2

/-- C10 (the offset of `qsize`). Let `main` have started the threads in state `s0` on a
file whose contents are `scanned` at the pre-scan and `file` when the producer reads
it, and let the input hold fewer than 2^31 records in all (those counted by the
pre-scan plus those read by the producer), so that the `int` counter `qsize` never
leaves its range. Let `n0` be the value of `qsize` in `s0`: the value left by the
pre-scan of lines 227-230, `prescan scanned 0`. Then after every sequence of
`add_customer`, `get_customer` and shutdown calls whose number of `add_customer` calls
added to `n0` stays below 2^31, and in every state of every run of the threads,
`qsize = n0 + (number of customers in the deque)`. Hence, if `n0 > 0`, in every state
of the run `qsize` is not 0, the conditions of lines 174 and 198 are false, and every
table that has ended has ended through the exit of `get_customer`. -/
theorem qsize_offset (e : MainEnv) (s0 : Sys) (scanned file : List Tok)
    (h : main e = MainResult.running s0)
    (hscanned : e.open_rw = some scanned) (hfile : e.open_r = some file)
    (hbound : record_count scanned + record_count (read_burst file) < 2147483648) :
    s0.shared.qsize = prescan scanned 0 ∧
    s0.shared.customers = [] ∧
    (∀ ops : List Op, s0.shared.qsize + (addedBy ops).length < 2147483648 →
      (runOps s0.shared ops).1.qsize
        = s0.shared.qsize + (runOps s0.shared ops).1.customers.length) ∧
    (∀ evs : List Event,
      (run s0 evs).shared.qsize = s0.shared.qsize + (run s0 evs).shared.customers.length ∧
      (0 < s0.shared.qsize →
        (run s0 evs).shared.qsize ≠ 0 ∧
        (∀ c : Customer, exit_check_174 c (run s0 evs).shared = false) ∧
        exit_check_198 (run s0 evs).shared = false ∧
        ∀ (i : Nat) (via : ExitPath),
          (run s0 evs).tables[i]? = some (Table.stopped via) → via = ExitPath.get_exit)) := by
  obtain ⟨scanned2, file2, hs2, hf2, rfl⟩ := main_running e s0 h
  rw [hscanned] at hs2
  rw [hfile] at hf2
  cases hs2
  cases hf2
  have hb : (boot scanned file).shared.qsize = prescan scanned 0 := rfl
  have hinv0 : Inv (prescan scanned 0) (boot scanned file) := Inv_boot scanned file hbound
  refine ⟨rfl, rfl, ?_, ?_⟩
  · intro ops hops
    rw [hb] at hops ⊢
    exact runOps_qsize _ ops _ hinv0.1 (by simp [boot])
      (by simpa [boot] using hops)
  · intro evs
    obtain ⟨_, _, hq, _, _, hx⟩ := Inv_run _ _ evs hinv0
    rw [hb]
    refine ⟨hq, ?_⟩
    intro hpos
    have hne : (run (boot scanned file) evs).shared.qsize ≠ 0 := by omega
    refine ⟨hne, ?_, ?_, ?_⟩
    · intro c
      simp [exit_check_174, hne]
    · simp [exit_check_198, hne]
    · intro i via hi
      exact hx hpos _ (List.getElem?_mem hi) via rfl

/-- A concrete instance of C10: for `example_file` the pre-scan leaves `qsize = 1`, and
at the end of `example_closing` both exit checks are false. -/
theorem qsize_offset_witness :
    main example_env = MainResult.running (boot example_file example_file) ∧
    record_count example_file + record_count (read_burst example_file) < 2147483648 ∧
    0 < (boot example_file example_file).shared.qsize ∧
    (run (boot example_file example_file) example_closing).shared.qsize
      = (boot example_file example_file).shared.qsize
        + (run (boot example_file example_file) example_closing).shared.customers.length ∧
    exit_check_198 (run (boot example_file example_file) example_closing).shared = false :=
  ⟨by decide, by decide, by decide,
   ((qsize_offset example_env (boot example_file example_file) example_file example_file
      (by decide) rfl rfl (by decide)).2.2.2 example_closing).1,
   (((qsize_offset example_env (boot example_file example_file) example_file example_file
      (by decide) rfl rfl (by decide)).2.2.2 example_closing).2 (by decide)).2.2.1⟩

/-- C6 (timestamp ordering) fails on the code. On `example_file`, under the schedule
`example_service` whose clock never goes backwards, the record reported in the `Leave`
line of customer 1 has `arrival_time` = `sit_time` = 5 s and `leave_time` = 0: no
statement of `table_function` assigns `leave_time`, so it still holds the epoch that
the default construction at line 127 gave it, and `sit_time ≤ leave_time` is false. -/
theorem leave_time_not_stamped :
    clock_monotone example_service = true ∧
    (run (boot example_file example_file) example_service).leaves.map Leave.customer
      = [{ id := 1, eating_time_left := 2, arrival_time := 5000000000,
           sit_time := 5000000000, leave_time := 0 }] ∧
    ¬ (∀ l ∈ (run (boot example_file example_file) example_service).leaves,
        l.customer.arrival_time ≤ l.customer.sit_time ∧
        l.customer.sit_time ≤ l.customer.leave_time) := by
  decide

/-- C7 (wait and turnaround) fails on the code. On `example_file`, under the schedule
`example_service` whose clock never goes backwards, the `Leave` line of customer 1
reports turnaround `-5` and wait `0`: the turnaround is computed from the
`leave_time` that was never assigned, so `turnaround ≥ wait` is false. -/
theorem turnaround_below_wait :
    clock_monotone example_service = true ∧
    (run (boot example_file example_file) example_service).leaves.map
        (fun l => (l.customer.id, l.turnaround_time, l.wait_time, l.table_id))
      = [(1, -5, 0, 1)] ∧
    ¬ (∀ l ∈ (run (boot example_file example_file) example_service).leaves,
        0 ≤ l.wait_time ∧ l.wait_time ≤ l.turnaround_time) := by
  decide

/-- C8 (`qsize` equals the deque's length) fails on the code. For `example_file` the
pre-scan of lines 227-230 leaves `qsize = 1` while the deque is empty when the threads
start; after the producer's `add_customer`, `qsize = 2` with one customer queued; and
when that customer has been served and the deque is empty again, `qsize = 1`. -/
theorem qsize_counts_twice :
    main example_env = MainResult.running (boot example_file example_file) ∧
    (boot example_file example_file).shared.qsize = 1 ∧
    (boot example_file example_file).shared.customers.length = 0 ∧
    (run (boot example_file example_file) [Event.producer 5000000000]).shared.qsize = 2 ∧
    (run (boot example_file example_file)
      [Event.producer 5000000000]).shared.customers.length = 1 ∧
    (run (boot example_file example_file) example_closing).shared.qsize = 1 ∧
    (run (boot example_file example_file) example_closing).shared.customers.length = 0 := by
  decide

/-- C9 (fatal start-up errors end with a non-zero status) fails on the code for a wrong
argument count. Called without a file argument (`argc = 1`), `main` takes the branch
of lines 211-215 and returns status 0, with no thread started. -/
theorem main_usage_returns_zero :
    main { argc := 1, open_rw := none, open_r := none, mutex_init := 0, cond_init := 0,
           create := fun _ => 0 } = MainResult.ended 0 0 := by
  decide

/-! ## Time stamps along a run -/

theorem arrived_by_mono {T T2 : Int} {c : Customer} (h : c.arrived_by T) (hT : T ≤ T2) :
    c.arrived_by T2 :=
  ⟨le_trans h.1 hT, h.2⟩

theorem table_function_time (T now : Int) (sh : Shared) (t : Table) (table_id : Nat)
    (hT : T ≤ now)
    (hsh : ∀ c ∈ sh.customers, c.arrived_by T)
    (hu : ∀ c, t.unseated? = some c → c.arrived_by T)
    (hs : ∀ c, t.seated? = some c → c.seated_ok) :
    (∀ c ∈ (table_function table_id sh now t).2.1.customers, c.arrived_by now) ∧
    (∀ c, (table_function table_id sh now t).1.unseated? = some c → c.arrived_by now) ∧
    (∀ c, (table_function table_id sh now t).1.seated? = some c → c.seated_ok) ∧
    (∀ l ∈ (table_function table_id sh now t).2.2.toList,
      l.customer.seated_ok ∧ l = leave_report l.customer l.table_id) := by
  have hsh2 : ∀ c ∈ sh.customers, c.arrived_by now :=
    fun c hc => arrived_by_mono (hsh c hc) hT
  cases t with
  | calling =>
    cases hc : sh.customers with
    | nil =>
      cases hd : sh.done <;>
        simp [table_function, get_customer, hc, hd, Table.unseated?, Table.seated?]
    | cons c rest =>
      rw [hc] at hsh2
      simp only [table_function, get_customer, hc]
      refine ⟨fun c2 h2 => hsh2 c2 (List.mem_cons_of_mem _ h2), ?_, ?_, ?_⟩
      · intro c2 h2
        simp only [Table.unseated?, Option.some.injEq] at h2
        rw [← h2]
        exact hsh2 c (List.mem_cons_self _ _)
      · intro c2 h2
        simp [Table.seated?] at h2
      · intro l hl
        simp at hl
  | fetched c =>
    have hc : c.arrived_by now := arrived_by_mono (hu c rfl) hT
    by_cases hcond : (c.id == 0 && sh.done) = true
    · simp only [table_function, hcond, if_true]
      refine ⟨hsh2, ?_, ?_, ?_⟩
      · intro c2 h2
        simp only [Table.unseated?, Option.some.injEq] at h2
        rw [← h2]
        exact hc
      · intro c2 h2
        simp [Table.seated?] at h2
      · intro l hl
        simp at hl
    · simp only [table_function, hcond, Bool.false_eq_true, if_false]
      refine ⟨hsh2, ?_, ?_, ?_⟩
      · intro c2 h2
        simp only [Table.unseated?, Option.some.injEq] at h2
        rw [← h2]
        exact hc
      · intro c2 h2
        simp [Table.seated?] at h2
      · intro l hl
        simp at hl
  | fetchedQ c =>
    have hc : c.arrived_by now := arrived_by_mono (hu c rfl) hT
    by_cases hcond : (sh.qsize == 0) = true
    · simp only [table_function, hcond, if_true]
      refine ⟨hsh2, ?_, ?_, ?_⟩
      · intro c2 h2
        simp [Table.unseated?] at h2
      · intro c2 h2
        simp [Table.seated?] at h2
      · intro l hl
        simp at hl
    · simp only [table_function, hcond, Bool.false_eq_true, if_false]
      refine ⟨hsh2, ?_, ?_, ?_⟩
      · intro c2 h2
        simp only [Table.unseated?, Option.some.injEq] at h2
        rw [← h2]
        exact hc
      · intro c2 h2
        simp [Table.seated?] at h2
      · intro l hl
        simp at hl
  | seating c =>
    have hc : c.arrived_by now := arrived_by_mono (hu c rfl) hT
    simp only [table_function]
    refine ⟨hsh2, ?_, ?_, ?_⟩
    · intro c2 h2
      simp [Table.unseated?] at h2
    · intro c2 h2
      simp only [Table.seated?, Option.some.injEq] at h2
      rw [← h2]
      exact ⟨hc.1, hc.2⟩
    · intro l hl
      simp at hl
  | eating c =>
    have hc : c.seated_ok := hs c rfl
    simp only [table_function]
    refine ⟨hsh2, ?_, ?_, ?_⟩
    · intro c2 h2
      simp [Table.unseated?] at h2
    · intro c2 h2
      simp [Table.seated?] at h2
    · intro l hl
      simp only [Option.toList, List.mem_singleton] at hl
      rw [hl]
      exact ⟨hc, rfl⟩
  | leaving =>
    cases hd : sh.done <;>
      simp only [table_function, hd] <;>
      exact ⟨hsh2, by simp [Table.unseated?], by simp [Table.seated?], by simp⟩
  | leavingQ =>
    by_cases hcond : (sh.qsize == 0) = true
    · simp only [table_function, hcond, if_true]
      exact ⟨hsh2, by simp [Table.unseated?], by simp [Table.seated?], by simp⟩
    · simp only [table_function, hcond, Bool.false_eq_true, if_false]
      exact ⟨hsh2, by simp [Table.unseated?], by simp [Table.seated?], by simp⟩
  | stopped v =>
    simp only [table_function]
    exact ⟨hsh2, by simp [Table.unseated?], by simp [Table.seated?], by simp⟩

theorem TimeInv_step (T : Int) (s : Sys) (ev : Event) (h : TimeInv T s) (hT : T ≤ ev.now) :
    TimeInv ev.now (step s ev) := by
  obtain ⟨hsh, hu, hs, hl⟩ := h
  cases ev with
  | producer now =>
    simp only [Event.now] at hT ⊢
    have hu2 : ∀ t ∈ s.tables, ∀ c, t.unseated? = some c → c.arrived_by now :=
      fun t ht c hc => arrived_by_mono (hu t ht c hc) hT
    have hsh2 : ∀ c ∈ s.shared.customers, c.arrived_by now :=
      fun c hc => arrived_by_mono (hsh c hc) hT
    cases hp : s.producer with
    | finished =>
      simp only [step, producer_function, hp]
      exact ⟨hsh2, hu2, hs, hl⟩
    | reading file id1 =>
      rcases hf : fscanf_pair file with ⟨_ | ⟨a, b⟩, rest⟩
      · simp only [step, producer_function, hp, hf, signal_done]
        exact ⟨hsh2, hu2, hs, hl⟩
      · simp only [step, producer_function, hp, hf, add_customer]
        refine ⟨?_, hu2, hs, hl⟩
        intro c hc
        rcases List.mem_append.mp hc with h1 | h1
        · exact hsh2 c h1
        · rw [List.mem_singleton] at h1
          rw [h1]
          exact ⟨le_refl _, rfl⟩
  | table i now =>
    simp only [Event.now] at hT ⊢
    cases ht : s.tables[i]? with
    | none =>
      simp only [step, ht]
      exact ⟨fun c hc => arrived_by_mono (hsh c hc) hT,
        fun t ht c hc => arrived_by_mono (hu t ht c hc) hT, hs, hl⟩
    | some t =>
      have hmem : t ∈ s.tables := List.getElem?_mem ht
      obtain ⟨k1, k2, k3, k4⟩ :=
        table_function_time T now s.shared t (i + 1) hT hsh (hu t hmem) (hs t hmem)
      simp only [step, ht]
      refine ⟨k1, ?_, ?_, ?_⟩
      · intro t2 ht2 c hc
        rcases List.mem_or_eq_of_mem_set ht2 with h1 | h1
        · exact arrived_by_mono (hu t2 h1 c hc) hT
        · rw [h1] at hc
          exact k2 c hc
      · intro t2 ht2 c hc
        rcases List.mem_or_eq_of_mem_set ht2 with h1 | h1
        · exact hs t2 h1 c hc
        · rw [h1] at hc
          exact k3 c hc
      · intro l hl2
        rcases List.mem_append.mp hl2 with h1 | h1
        · exact hl l h1
        · exact k4 l h1

theorem TimeInv_run (evs : List Event) (T : Int) (s : Sys) (h : TimeInv T s)
    (hfirst : ∀ e, evs.head? = some e → T ≤ e.now) (hmono : clock_monotone evs = true) :
    ∃ T2, TimeInv T2 (run s evs) := by
  induction evs generalizing T s with
  | nil => exact ⟨T, h⟩
  | cons ev evs ih =>
    rw [run_cons]
    apply ih ev.now (step s ev) (TimeInv_step T s ev h (hfirst ev rfl))
    · intro e he
      cases evs with
      | nil => cases he
      | cons e2 evs =>
        simp only [List.head?_cons, Option.some.injEq] at he
        rw [← he]
        simp only [clock_monotone, Bool.and_eq_true, decide_eq_true_eq] at hmono
        exact hmono.1
    · cases evs with
      | nil => rfl
      | cons e2 evs =>
        simp only [clock_monotone, Bool.and_eq_true, decide_eq_true_eq] at hmono
        exact hmono.2

theorem TimeInv_boot (T : Int) (scanned file : List Tok) : TimeInv T (boot scanned file) := by
  refine ⟨?_, ?_, ?_, ?_⟩
  · intro c hc
    simp [boot] at hc
  · intro t ht c hc
    simp only [boot, List.mem_replicate] at ht
    rw [ht.2] at hc
    cases hc
  · intro t ht c hc
    simp only [boot, List.mem_replicate] at ht
    rw [ht.2] at hc
    cases hc
  · intro l hl
    simp [boot] at hl

/-- What every `Leave` line of every run satisfies under a clock that never goes
backwards: the record's sit stamp is not before its arrival stamp, its `leave_time`
is the epoch (never assigned), the wait reported is not negative, and the turnaround
reported is the whole seconds of `0 - arrival_time`. -/
theorem leave_lines (scanned file : List Tok) (evs : List Event)
    (hmono : clock_monotone evs = true) :
    ∀ l ∈ (run (boot scanned file) evs).leaves,
      l.customer.arrival_time ≤ l.customer.sit_time ∧
      l.customer.leave_time = 0 ∧
      0 ≤ l.wait_time ∧
      l.turnaround_time = to_seconds (0 - l.customer.arrival_time) := by
  have hT : ∃ T, ∀ e, evs.head? = some e → T ≤ e.now := by
    cases evs with
    | nil => exact ⟨0, fun e he => by cases he⟩
    | cons e0 evs =>
      refine ⟨e0.now, fun e he => ?_⟩
      simp only [List.head?_cons, Option.some.injEq] at he
      rw [he]
  obtain ⟨T, hT⟩ := hT
  obtain ⟨T2, _, _, _, hl⟩ := TimeInv_run evs T _ (TimeInv_boot T scanned file) hT hmono
  intro l hmem
  obtain ⟨⟨h1, h2⟩, h3⟩ := hl l hmem
  refine ⟨h1, h2, ?_, ?_⟩
  · rw [h3]
    simp only [leave_report, to_seconds]
    exact Int.tdiv_nonneg (by omega) (by decide)
  · rw [h3]
    simp only [leave_report, h2]

/-- The error paths of `main` that do end with a non-zero status: when either `fopen`
fails (with the argument count right), the process exits with `EXIT_FAILURE`, which is
not 0, and no thread has been started. -/
theorem main_fopen_failure (e : MainEnv) (hargc : e.argc = 2)
    (hopen : e.open_rw = none ∨ e.open_r = none) :
    main e = MainResult.ended EXIT_FAILURE 0 ∧ EXIT_FAILURE ≠ 0 := by
  refine ⟨?_, by decide⟩
  unfold main
  rcases hopen with h | h
  · simp [hargc, h]
  · cases hrw : e.open_rw <;> simp [hargc, h, hrw]

/-- The branch of lines 211-215: with any argument count other than 2, `main` returns
status 0 without opening the file or starting a thread. -/
theorem main_wrong_argc (e : MainEnv) (hargc : e.argc ≠ 2) :
    main e = MainResult.ended 0 0 := by
  simp [main, hargc]

end Fifo
